import Mathlib

/-!
Shallow embedding of the subtype-constraint algebra of the `espr` EXPRESS
compiler (`espr/src/ir/complex_entity.rs` and `espr/src/ir/scope.rs`),
together with proofs of the specified algebraic laws.

Rust vectors of machine-word indices are modelled as `List Nat`; the
itertools combinators `sorted()` / `dedup()` become `List.insertionSort`
followed by removal of consecutive duplicates.  Fallible code returns
`Except` / `Option`; an assertion failure (Rust `assert!` panic) is
modelled by a dedicated `panic` outcome.
-/

section CanonMachinery

variable {α : Type} [LinearOrder α]

/-- Removal of consecutive duplicate elements, as itertools' `dedup()`
adaptor does on an iterator. -/
def dedupConsec : List α → List α
  | [] => []
  | [a] => [a]
  | a :: b :: rest =>
    if a = b then dedupConsec (b :: rest) else a :: dedupConsec (b :: rest)

/-- The `sorted().dedup()` pipeline (also `sort_unstable()` plus `dedup()`):
sort ascending, then drop consecutive duplicates. -/
def canonList (l : List α) : List α :=
  dedupConsec (List.insertionSort (· ≤ ·) l)

theorem mem_dedupConsec : ∀ {l : List α} {x : α}, x ∈ dedupConsec l ↔ x ∈ l
  | [], _ => Iff.rfl
  | [_], _ => Iff.rfl
  | a :: b :: rest, x => by
    by_cases hab : a = b
    · rw [dedupConsec, if_pos hab, mem_dedupConsec (l := b :: rest)]
      subst hab
      simp
    · rw [dedupConsec, if_neg hab]
      simp [mem_dedupConsec (l := b :: rest)]

theorem dedupConsec_sorted :
    ∀ {l : List α}, l.Sorted (· ≤ ·) → (dedupConsec l).Sorted (· < ·)
  | [], _ => List.sorted_nil
  | [a], _ => List.sorted_singleton a
  | a :: b :: rest, h => by
    have htail : (b :: rest).Sorted (· ≤ ·) := h.tail
    by_cases hab : a = b
    · rw [dedupConsec, if_pos hab]
      exact dedupConsec_sorted htail
    · rw [dedupConsec, if_neg hab]
      refine List.sorted_cons.2 ⟨?_, dedupConsec_sorted htail⟩
      intro y hy
      have hyb : y ∈ b :: rest := mem_dedupConsec.1 hy
      have hab' : a < b := lt_of_le_of_ne (List.rel_of_sorted_cons h b (by simp)) hab
      rcases List.mem_cons.1 hyb with rfl | hyr
      · exact hab'
      · exact lt_of_lt_of_le hab' (List.rel_of_sorted_cons htail y hyr)

theorem dedupConsec_eq_self :
    ∀ {l : List α}, l.Sorted (· < ·) → dedupConsec l = l
  | [], _ => rfl
  | [_], _ => rfl
  | a :: b :: rest, h => by
    have hab : a ≠ b := ne_of_lt (List.rel_of_sorted_cons h b (by simp))
    rw [dedupConsec, if_neg hab, dedupConsec_eq_self (l := b :: rest) h.tail]

theorem mem_canonList {l : List α} {x : α} : x ∈ canonList l ↔ x ∈ l :=
  mem_dedupConsec.trans (List.perm_insertionSort (· ≤ ·) l).mem_iff

theorem canonList_sorted (l : List α) : (canonList l).Sorted (· < ·) :=
  dedupConsec_sorted (List.sorted_insertionSort (· ≤ ·) l)

theorem canonList_eq_self {l : List α} (h : l.Sorted (· < ·)) : canonList l = l := by
  rw [canonList,
    List.Sorted.insertionSort_eq (h.imp fun hab => le_of_lt hab),
    dedupConsec_eq_self h]

theorem sorted_lt_nodup {l : List α} (h : l.Sorted (· < ·)) : l.Nodup :=
  h.imp fun hab => ne_of_lt hab

theorem sorted_lt_eq_of_mem_iff {l₁ l₂ : List α} (h₁ : l₁.Sorted (· < ·))
    (h₂ : l₂.Sorted (· < ·)) (hm : ∀ x, x ∈ l₁ ↔ x ∈ l₂) : l₁ = l₂ := by
  haveI : IsAntisymm α (· < ·) :=
    ⟨fun a b hab hba => absurd hba (lt_asymm hab)⟩
  exact List.eq_of_perm_of_sorted
    ((List.perm_ext_iff_of_nodup (sorted_lt_nodup h₁) (sorted_lt_nodup h₂)).2 hm)
    h₁ h₂

theorem canonList_congr {l₁ l₂ : List α} (hm : ∀ x, x ∈ l₁ ↔ x ∈ l₂) :
    canonList l₁ = canonList l₂ :=
  sorted_lt_eq_of_mem_iff (canonList_sorted l₁) (canonList_sorted l₂)
    (fun x => mem_canonList.trans ((hm x).trans mem_canonList.symm))

end CanonMachinery

/-- `PartialComplexEntity` from `espr/src/ir/complex_entity.rs`: a list of
namespace indices (documented there as sorted and duplicate-free). -/
structure PartialComplexEntity where
  indices : List Nat
deriving DecidableEq, Repr

/-- The derived Rust `Ord`: compare lengths first, then the index vectors
lexicographically (`PartialComplexEntity::cmp`). -/
instance : LinearOrder PartialComplexEntity :=
  LinearOrder.lift' (fun p => toLex (p.indices.length, p.indices))
    (fun a b h => by
      cases a
      cases b
      have h2 := congrArg (fun x => (ofLex x).2) h
      simp only [ofLex_toLex] at h2
      simpa using h2)

namespace PartialComplexEntity

/-- `PartialComplexEntity::new`: `indices.iter().cloned().dedup().collect()`.
NOTE: the source applies only the consecutive-duplicate removal; it does
not sort. -/
def new (indices : List Nat) : PartialComplexEntity :=
  ⟨dedupConsec indices⟩

/-- `impl BitAnd for PartialComplexEntity`: append the two index vectors,
`sort_unstable()`, then `dedup()`. -/
def bitand (a b : PartialComplexEntity) : PartialComplexEntity :=
  ⟨canonList (a.indices ++ b.indices)⟩

/-- The documented invariant of the `indices` field: strictly increasing
(hence duplicate-free). -/
def Canonical (p : PartialComplexEntity) : Prop :=
  p.indices.Sorted (· < ·)

instance : DecidablePred Canonical := fun p =>
  inferInstanceAs (Decidable (p.indices.Sorted (· < ·)))

theorem ext_indices : ∀ {a b : PartialComplexEntity}, a.indices = b.indices → a = b
  | ⟨_⟩, ⟨_⟩, rfl => rfl

theorem mem_bitand_indices {a b : PartialComplexEntity} {x : Nat} :
    x ∈ (a.bitand b).indices ↔ x ∈ a.indices ∨ x ∈ b.indices := by
  rw [bitand]
  exact mem_canonList.trans (List.mem_append)

theorem bitand_canonical (a b : PartialComplexEntity) : (a.bitand b).Canonical :=
  canonList_sorted _

end PartialComplexEntity

/-- The slice `binary_search` loop from Rust's standard library, applied by
`impl Div for Instantiables` to each `p.indices`: bisect on `[left, right)`
with midpoint `left + (right - left) / 2`, returning whether the target was
found.  The loop shrinks `right - left` by at least one per iteration, so
fuel `l.length + 1` makes the embedding total with the same semantics. -/
def binarySearchGo (l : List Nat) (target : Nat) : Nat → Nat → Nat → Bool
  | 0, _, _ => false
  | fuel + 1, left, right =>
    if left < right then
      if l.getD (left + (right - left) / 2) 0 < target then
        binarySearchGo l target fuel (left + (right - left) / 2 + 1) right
      else if target < l.getD (left + (right - left) / 2) 0 then
        binarySearchGo l target fuel left (left + (right - left) / 2)
      else true
    else false

/-- `p.indices.binary_search(j).is_ok()`. -/
def binSearchFound (l : List Nat) (target : Nat) : Bool :=
  binarySearchGo l target (l.length + 1) 0 l.length

/-- `Instantiables` from `espr/src/ir/complex_entity.rs`: a list of partial
complex entities (documented there as sorted and duplicate-free). -/
structure Instantiables where
  parts : List PartialComplexEntity
deriving DecidableEq, Repr

namespace Instantiables

/-- `Instantiables::new`: `pces.to_vec()` — the input list is taken as is. -/
def new (pces : List PartialComplexEntity) : Instantiables :=
  ⟨pces⟩

/-- `Instantiables::single`. -/
def single (index : Nat) : Instantiables :=
  ⟨[PartialComplexEntity.new [index]]⟩

/-- `impl FromIterator<&PartialComplexEntity> for Instantiables`:
`iter.into_iter().cloned().sorted().dedup().collect()`. -/
def fromIter (pces : List PartialComplexEntity) : Instantiables :=
  ⟨canonList pces⟩

/-- `impl Add for Instantiables`: append then `sorted().dedup()`. -/
def add (a b : Instantiables) : Instantiables :=
  ⟨canonList (a.parts ++ b.parts)⟩

/-- `impl BitAnd for Instantiables`: all pairwise `p & q` products,
then `sorted().dedup()`. -/
def bitand (a b : Instantiables) : Instantiables :=
  ⟨canonList ((a.parts.map fun p => b.parts.map fun q => p.bitand q).flatten)⟩

/-- `impl Sub for Instantiables`: keep the parts of the left operand that
equal no part of the right operand. -/
def sub (a b : Instantiables) : Instantiables :=
  ⟨a.parts.filter fun p => b.parts.all fun q => decide (p ≠ q)⟩

/-- `impl Div for Instantiables`: keep the parts `p` of the left operand
such that every index of some part `q` of the right operand is found in
`p.indices` by `binary_search`. -/
def div (a b : Instantiables) : Instantiables :=
  ⟨a.parts.filter fun p => b.parts.any fun q =>
    q.indices.all fun j => binSearchFound p.indices j⟩

/-- `Instantiables::oneof`: fold `+` over the operands starting from the
derived `Default` (the empty list). -/
def oneof (parts : List Instantiables) : Instantiables :=
  parts.foldl add ⟨[]⟩

/-- `Instantiables::and`: `assert!(terms.len() >= 2)`, then fold `&` over
the operands.  `none` models the assertion failure (panic). -/
def and (terms : List Instantiables) : Option Instantiables :=
  if 2 ≤ terms.length then
    match terms with
    | [] => none
    | t :: rest => some (rest.foldl bitand t)
  else none

/-- The documented invariant of the `parts` field: strictly increasing in
the PCE order, every part itself canonical. -/
def Canonical (A : Instantiables) : Prop :=
  A.parts.Sorted (· < ·) ∧ ∀ p ∈ A.parts, p.Canonical

theorem ext_parts : ∀ {a b : Instantiables}, a.parts = b.parts → a = b
  | ⟨_⟩, ⟨_⟩, rfl => rfl

theorem mem_add {a b : Instantiables} {x : PartialComplexEntity} :
    x ∈ (a.add b).parts ↔ x ∈ a.parts ∨ x ∈ b.parts := by
  rw [add]
  exact mem_canonList.trans (List.mem_append)

theorem add_sorted (a b : Instantiables) : (a.add b).parts.Sorted (· < ·) :=
  canonList_sorted _

theorem mem_bitand {a b : Instantiables} {x : PartialComplexEntity} :
    x ∈ (a.bitand b).parts ↔
      ∃ p ∈ a.parts, ∃ q ∈ b.parts, x = p.bitand q := by
  rw [bitand]
  refine mem_canonList.trans ?_
  simp only [List.mem_flatten, List.mem_map]
  constructor
  · rintro ⟨s, ⟨p, hp, rfl⟩, hx⟩
    rcases List.mem_map.1 hx with ⟨q, hq, rfl⟩
    exact ⟨p, hp, q, hq, rfl⟩
  · rintro ⟨p, hp, q, hq, rfl⟩
    exact ⟨b.parts.map fun q => p.bitand q, ⟨p, hp, rfl⟩,
      List.mem_map.2 ⟨q, hq, rfl⟩⟩

theorem bitand_sorted (a b : Instantiables) : (a.bitand b).parts.Sorted (· < ·) :=
  canonList_sorted _

theorem eq_of_sorted_of_mem_iff {a b : Instantiables}
    (ha : a.parts.Sorted (· < ·)) (hb : b.parts.Sorted (· < ·))
    (hm : ∀ x, x ∈ a.parts ↔ x ∈ b.parts) : a = b :=
  ext_parts (sorted_lt_eq_of_mem_iff ha hb hm)

end Instantiables

theorem sorted_getD_lt {l : List Nat} (hs : l.Sorted (· < ·)) {i j : Nat}
    (hij : i < j) (hj : j < l.length) : l.getD i 0 < l.getD j 0 := by
  have hi : i < l.length := lt_trans hij hj
  rw [List.getD_eq_getElem l 0 hi, List.getD_eq_getElem l 0 hj]
  have := List.pairwise_iff_get.1 hs ⟨i, hi⟩ ⟨j, hj⟩ hij
  simpa using this

theorem binarySearchGo_sound {l : List Nat} {t : Nat} :
    ∀ (fuel : Nat) {left right : Nat}, right ≤ l.length →
      binarySearchGo l t fuel left right = true → t ∈ l := by
  intro fuel
  induction fuel with
  | zero =>
    intro left right _ h
    exact absurd h (by simp [binarySearchGo])
  | succ n ih =>
    intro left right h1 h
    rw [binarySearchGo] at h
    by_cases hlr : left < right
    · rw [if_pos hlr] at h
      have hmid : left + (right - left) / 2 < l.length := by omega
      by_cases hv1 : l.getD (left + (right - left) / 2) 0 < t
      · rw [if_pos hv1] at h
        exact ih h1 h
      · rw [if_neg hv1] at h
        by_cases hv2 : t < l.getD (left + (right - left) / 2) 0
        · rw [if_pos hv2] at h
          exact ih (by omega) h
        · have : l.getD (left + (right - left) / 2) 0 = t := by omega
          rw [← this, List.getD_eq_getElem l 0 hmid]
          exact List.getElem_mem hmid
    · rw [if_neg hlr] at h
      exact absurd h (by simp)

theorem binarySearchGo_complete {l : List Nat} {t : Nat} (hs : l.Sorted (· < ·)) :
    ∀ (fuel : Nat) {left right k : Nat}, right ≤ l.length → right - left ≤ fuel →
      left ≤ k → k < right → l.getD k 0 = t →
      binarySearchGo l t fuel left right = true := by
  intro fuel
  induction fuel with
  | zero =>
    intro left right k _ h2 h3 h4 _
    omega
  | succ n ih =>
    intro left right k h1 h2 h3 h4 h5
    have hlr : left < right := lt_of_le_of_lt h3 h4
    rw [binarySearchGo, if_pos hlr]
    have hmid : left + (right - left) / 2 < l.length := by omega
    by_cases hv1 : l.getD (left + (right - left) / 2) 0 < t
    · rw [if_pos hv1]
      have hk : left + (right - left) / 2 + 1 ≤ k := by
        by_contra hk
        push_neg at hk
        rcases Nat.lt_or_ge k (left + (right - left) / 2) with hlt | hge
        · have := sorted_getD_lt hs hlt hmid
          omega
        · have : k = left + (right - left) / 2 := by omega
          subst this
          omega
      exact ih h1 (by omega) hk h4 h5
    · rw [if_neg hv1]
      by_cases hv2 : t < l.getD (left + (right - left) / 2) 0
      · rw [if_pos hv2]
        have hk : k < left + (right - left) / 2 := by
          by_contra hk
          push_neg at hk
          rcases Nat.lt_or_ge (left + (right - left) / 2) k with hlt | hge
          · have := sorted_getD_lt hs hlt (lt_of_lt_of_le h4 h1)
            omega
          · have : k = left + (right - left) / 2 := by omega
            subst this
            omega
        exact ih (by omega) (by omega) h3 hk h5
      · rw [if_neg hv2]

theorem binSearchFound_iff_mem {l : List Nat} (hs : l.Sorted (· < ·)) {t : Nat} :
    binSearchFound l t = true ↔ t ∈ l := by
  constructor
  · exact binarySearchGo_sound (l.length + 1) (le_refl _)
  · intro ht
    rcases List.mem_iff_get.1 ht with ⟨⟨k, hk⟩, hget⟩
    refine binarySearchGo_complete hs (l.length + 1) (le_refl _) (by omega)
      (Nat.zero_le k) hk ?_
    rw [List.getD_eq_getElem l 0 hk]
    simpa using hget

/-- One masked term of `Instantiables::andor`: the inner `for factor in
&factors` loop for bitmask `i`.  On each set low bit the factor is folded
into the accumulator `c` (`None` initially), and `i` is shifted right. -/
def andorTerm : List Instantiables → Nat → Option Instantiables → Option Instantiables
  | [], _, c => c
  | f :: fs, i, c =>
    andorTerm fs (i / 2)
      (if i % 2 = 1 then
        some (match c with
          | some pre => pre.bitand f
          | none => f)
      else c)

/-- `Instantiables::andor`: `assert!(!factors.is_empty())` is modelled as
`none`; otherwise sum the masked terms for every `i` in `1..2^n`, starting
from the derived `Default` (the empty list).  `.getD ⟨[]⟩` models the
`unwrap`, which never triggers for `i` in that range. -/
def Instantiables.andor (factors : List Instantiables) : Option Instantiables :=
  if factors.isEmpty then none
  else
    some ((List.range' 1 (2 ^ factors.length - 1)).foldl
      (fun acc i => acc.add ((andorTerm factors i none).getD ⟨[]⟩)) ⟨[]⟩)

/-- The `&`-product of a non-empty operand list, `x & x₁ & x₂ & …`. -/
def andProd (x : Instantiables) (xs : List Instantiables) : Instantiables :=
  xs.foldl Instantiables.bitand x

/-- Stated from the specification, for comparison with
`Instantiables.andor`: the sum over every non-empty subset `S` of the
operand list of the `&`-product of the members of `S`, subsets being
enumerated as sublists. -/
def andorSpec (factors : List Instantiables) : Instantiables :=
  ((factors.sublists.filter fun s => decide (s ≠ [])).map
    (fun s =>
      match s with
      | [] => Instantiables.new []
      | x :: xs => andProd x xs)).foldl Instantiables.add ⟨[]⟩

/-- The sub-list of `factors` selected by the set bits of `i` (bit `k`
selects the `k`-th factor), mirroring the bit walk of `andorTerm`. -/
def maskSelect : Nat → List Instantiables → List Instantiables
  | _, [] => []
  | i, f :: fs =>
    if i % 2 = 1 then f :: maskSelect (i / 2) fs else maskSelect (i / 2) fs

/-- `ScopeType` from `espr/src/ir/scope.rs`. -/
inductive ScopeType
  | Entity
  | Alias
  | Function
  | Procedure
  | Query
  | Repeat
  | Rule
  | Schema
  | SubType
  | Type
deriving DecidableEq, Repr

/-- `Scope` from `espr/src/ir/scope.rs`: an ordered list of
(scope kind, name) pairs; the root scope is the empty list. -/
structure Scope where
  items : List (ScopeType × String)
deriving DecidableEq, Repr

/-- The zip loop of the `PartialOrd` impl for `Scope`: `true` exactly when
no zipped pair of entries differs (the loop returns `None` on the first
differing pair). -/
def zipEqAll : List (ScopeType × String) → List (ScopeType × String) → Bool
  | x :: xs, y :: ys => decide (x = y) && zipEqAll xs ys
  | _, _ => true

/-- `Scope::partial_cmp`: `None` when a zipped pair of entries differs,
otherwise `Some(other.0.len().cmp(&self.0.len()))` — note the operand
swap in the length comparison. -/
def Scope.cmpOpt (a b : Scope) : Option Ordering :=
  if zipEqAll a.items b.items then some (compare b.items.length a.items.length)
  else none

/-- The `<=` operator `PartialOrd` derives from `partial_cmp`:
true on `Some(Less)` and `Some(Equal)`. -/
def Scope.le (a b : Scope) : Bool :=
  match Scope.cmpOpt a b with
  | some Ordering.lt => true
  | some Ordering.eq => true
  | _ => false

/-- `Path` from `espr/src/ir/scope.rs` (namespaced: Mathlib already has a
`Path`). -/
structure Espr.Path where
  scope : Scope
  ty : ScopeType
  name : String
deriving DecidableEq, Repr

/-- Modelled from the spec: the semantic-error type is not among the
provided sources (only referenced from `from_constraint_expr`); spec §4.7
lists its variants.  Payloads (spans, scopes, identifiers) are irrelevant
here and omitted. -/
inductive SemanticError
  | DuplicatePath
  | Unresolved
  | Ambiguous
  | CyclicSupertype
  | EmptyConstraint
  | InfeasibleConstraint
  | Internal
deriving DecidableEq, Repr

/-- Modelled from the spec: the `ConstraintExpr` tree (§3) is not among the
provided sources; a reference carries a path, and the three combinators
carry operand lists. -/
inductive ConstraintExpr
  | Reference (path : Espr.Path)
  | OneOf (exprs : List ConstraintExpr)
  | And (exprs : List ConstraintExpr)
  | AndOr (exprs : List ConstraintExpr)

/-- Outcome of lowering: a value, a `SemanticError` propagated by `?`, or a
panic from a failed `assert!`. -/
inductive LowerResult (α : Type)
  | ok (value : α)
  | err (e : SemanticError)
  | panic
deriving DecidableEq

mutual

/-- `Instantiables::from_constraint_expr`.  The namespace argument is
modelled from the spec (its source is not provided) as a lookup taking a
path to a resolved index or a diagnostic, abstracting `Namespace::get`. -/
def Instantiables.from_constraint_expr (ns : Espr.Path → Except SemanticError Nat) :
    ConstraintExpr → LowerResult Instantiables
  | ConstraintExpr.Reference p =>
    match ns p with
    | Except.ok index => LowerResult.ok (Instantiables.single index)
    | Except.error e => LowerResult.err e
  | ConstraintExpr.OneOf exprs =>
    match lowerExprs ns exprs with
    | LowerResult.ok l => LowerResult.ok (Instantiables.oneof l)
    | LowerResult.err e => LowerResult.err e
    | LowerResult.panic => LowerResult.panic
  | ConstraintExpr.And exprs =>
    match lowerExprs ns exprs with
    | LowerResult.ok l =>
      match Instantiables.and l with
      | some result => LowerResult.ok result
      | none => LowerResult.panic
    | LowerResult.err e => LowerResult.err e
    | LowerResult.panic => LowerResult.panic
  | ConstraintExpr.AndOr exprs =>
    match lowerExprs ns exprs with
    | LowerResult.ok l =>
      match Instantiables.andor l with
      | some result => LowerResult.ok result
      | none => LowerResult.panic
    | LowerResult.err e => LowerResult.err e
    | LowerResult.panic => LowerResult.panic

/-- Sequential lowering of the children of a combinator, as
`collect::<Result<Vec<_>, _>>()` does, with panics propagated. -/
def lowerExprs (ns : Espr.Path → Except SemanticError Nat) :
    List ConstraintExpr → LowerResult (List Instantiables)
  | [] => LowerResult.ok []
  | e :: rest =>
    match Instantiables.from_constraint_expr ns e with
    | LowerResult.ok i =>
      match lowerExprs ns rest with
      | LowerResult.ok l => LowerResult.ok (i :: l)
      | LowerResult.err er => LowerResult.err er
      | LowerResult.panic => LowerResult.panic
    | LowerResult.err er => LowerResult.err er
    | LowerResult.panic => LowerResult.panic

end

theorem andorTerm_some (b : Instantiables) :
    ∀ (fs : List Instantiables) (i : Nat),
      andorTerm fs i (some b) = some (andProd b (maskSelect i fs)) := by
  intro fs
  induction fs generalizing b with
  | nil => intro i; rfl
  | cons f fs ih =>
    intro i
    rw [andorTerm, maskSelect]
    by_cases hbit : i % 2 = 1
    · rw [if_pos hbit, if_pos hbit, ih]
      rfl
    · rw [if_neg hbit, if_neg hbit, ih]

theorem andorTerm_none :
    ∀ (fs : List Instantiables) (i : Nat),
      andorTerm fs i none =
        match maskSelect i fs with
        | [] => none
        | x :: xs => some (andProd x xs) := by
  intro fs
  induction fs with
  | nil => intro i; rfl
  | cons f fs ih =>
    intro i
    rw [andorTerm, maskSelect]
    by_cases hbit : i % 2 = 1
    · rw [if_pos hbit, if_pos hbit, andorTerm_some]
    · rw [if_neg hbit, if_neg hbit, ih]

theorem maskSelect_sublist :
    ∀ (fs : List Instantiables) (i : Nat), (maskSelect i fs).Sublist fs := by
  intro fs
  induction fs with
  | nil => intro i; exact List.Sublist.refl []
  | cons f fs ih =>
    intro i
    rw [maskSelect]
    by_cases hbit : i % 2 = 1
    · rw [if_pos hbit]
      exact (ih (i / 2)).cons₂ f
    · rw [if_neg hbit]
      exact (ih (i / 2)).cons f

theorem maskSelect_ne_nil :
    ∀ (fs : List Instantiables) (i : Nat),
      1 ≤ i → i < 2 ^ fs.length → maskSelect i fs ≠ [] := by
  intro fs
  induction fs with
  | nil =>
    intro i h1 h2
    simp at h2
    omega
  | cons f fs ih =>
    intro i h1 h2
    rw [maskSelect]
    by_cases hbit : i % 2 = 1
    · rw [if_pos hbit]
      exact List.cons_ne_nil f _
    · rw [if_neg hbit]
      have hp : (2 : Nat) ^ (f :: fs).length = 2 ^ fs.length * 2 := by
        rw [List.length_cons, pow_succ]
      refine ih (i / 2) (by omega) (by omega)

theorem exists_mask_of_sublist :
    ∀ {s fs : List Instantiables}, s.Sublist fs →
      ∃ i, i < 2 ^ fs.length ∧ maskSelect i fs = s ∧ (s ≠ [] → 1 ≤ i) := by
  intro s fs h
  induction h with
  | slnil => exact ⟨0, by simp [maskSelect]⟩
  | cons a h ih =>
    rcases ih with ⟨i, hlt, heq, hne⟩
    refine ⟨2 * i, ?_, ?_, ?_⟩
    · rw [List.length_cons, pow_succ]
      omega
    · rw [maskSelect, if_neg (by omega)]
      have : 2 * i / 2 = i := by omega
      rw [this, heq]
    · intro hs
      have := hne hs
      omega
  | cons₂ a h ih =>
    rcases ih with ⟨i, hlt, heq, _⟩
    refine ⟨2 * i + 1, ?_, ?_, ?_⟩
    · rw [List.length_cons, pow_succ]
      omega
    · rw [maskSelect, if_pos (by omega)]
      have : (2 * i + 1) / 2 = i := by omega
      rw [this, heq]
    · intro _
      omega

theorem mem_foldl_add :
    ∀ (l : List Instantiables) (init : Instantiables) (x : PartialComplexEntity),
      x ∈ (l.foldl Instantiables.add init).parts ↔
        x ∈ init.parts ∨ ∃ y ∈ l, x ∈ y.parts := by
  intro l
  induction l with
  | nil =>
    intro init x
    simp
  | cons y l ih =>
    intro init x
    rw [List.foldl_cons, ih]
    simp only [Instantiables.mem_add, List.mem_cons]
    constructor
    · rintro ((h | h) | ⟨z, hz, hx⟩)
      · exact Or.inl h
      · exact Or.inr ⟨y, Or.inl rfl, h⟩
      · exact Or.inr ⟨z, Or.inr hz, hx⟩
    · rintro (h | ⟨z, (rfl | hz), hx⟩)
      · exact Or.inl (Or.inl h)
      · exact Or.inl (Or.inr hx)
      · exact Or.inr ⟨z, hz, hx⟩

theorem foldl_add_sorted :
    ∀ (l : List Instantiables) (init : Instantiables),
      init.parts.Sorted (· < ·) →
      (l.foldl Instantiables.add init).parts.Sorted (· < ·) := by
  intro l
  induction l with
  | nil => intro init h; exact h
  | cons y l ih =>
    intro init _
    exact ih (init.add y) (Instantiables.add_sorted init y)

theorem bool_eq_of_iff {x y : Bool} (h : x = true ↔ y = true) : x = y := by
  cases x <;> cases y <;> simp_all

instance : DecidablePred Instantiables.Canonical := fun A =>
  inferInstanceAs (Decidable (A.parts.Sorted (· < ·) ∧ ∀ p ∈ A.parts, p.Canonical))

theorem PartialComplexEntity.bitand_comm (a b : PartialComplexEntity) :
    a.bitand b = b.bitand a := by
  apply PartialComplexEntity.ext_indices
  apply sorted_lt_eq_of_mem_iff (bitand_canonical a b) (bitand_canonical b a)
  intro x
  rw [PartialComplexEntity.mem_bitand_indices, PartialComplexEntity.mem_bitand_indices, or_comm]

theorem PartialComplexEntity.bitand_assoc (a b c : PartialComplexEntity) :
    (a.bitand b).bitand c = a.bitand (b.bitand c) := by
  apply PartialComplexEntity.ext_indices
  apply sorted_lt_eq_of_mem_iff (bitand_canonical _ _) (bitand_canonical _ _)
  intro x
  rw [PartialComplexEntity.mem_bitand_indices, PartialComplexEntity.mem_bitand_indices,
    PartialComplexEntity.mem_bitand_indices, PartialComplexEntity.mem_bitand_indices, or_assoc]

theorem PartialComplexEntity.bitand_self {a : PartialComplexEntity}
    (ha : a.Canonical) : a.bitand a = a := by
  apply PartialComplexEntity.ext_indices
  apply sorted_lt_eq_of_mem_iff (bitand_canonical a a) ha
  intro x
  rw [PartialComplexEntity.mem_bitand_indices, or_self]

/-- Stated from the specification, for comparison with `Instantiables.div`:
keep exactly those parts `p` of the left operand, in their original order,
for which some part `q` of the right operand has every index contained in
`p.indices` (equality of `q` and `p` allowed). -/
def Instantiables.divSpec (a b : Instantiables) : Instantiables :=
  ⟨a.parts.filter fun p => decide (∃ q ∈ b.parts, ∀ j ∈ q.indices, j ∈ p.indices)⟩

/-- C1 (code-bug evidence): `PartialComplexEntity::new` does not normalize.
On input `[2, 1, 2]` it returns the indices `[2, 1, 2]` unchanged — neither
sorted nor duplicate-free — contradicting the documented invariant of the
`indices` field and spec §4.3. -/
theorem pce_new_not_normalized :
    (PartialComplexEntity.new [2, 1, 2]).indices = [2, 1, 2] ∧
      ¬ (PartialComplexEntity.new [2, 1, 2]).Canonical ∧
      ¬ (PartialComplexEntity.new [2, 1, 2]).indices.Nodup :=
  ⟨rfl, by decide, by decide⟩

/-- C10: `Instantiables::new` performs no canonicalization — its `parts`
field is exactly the input list, order and duplicates included — whereas
the `FromIterator` construction and the `+` / `&` operations do sort and
deduplicate. -/
theorem instantiables_new_no_canonicalization (pces : List PartialComplexEntity)
    (A B : Instantiables) :
    (Instantiables.new pces).parts = pces ∧
      (Instantiables.fromIter pces).parts.Sorted (· < ·) ∧
      (∀ x, x ∈ (Instantiables.fromIter pces).parts ↔ x ∈ pces) ∧
      (A.add B).parts.Sorted (· < ·) ∧
      (A.bitand B).parts.Sorted (· < ·) :=
  ⟨rfl, canonList_sorted pces, fun _ => mem_canonList,
    Instantiables.add_sorted A B, Instantiables.bitand_sorted A B⟩

/-- C8: `&` on partial complex entities computes the set union of the two
index sets in canonical form; it is idempotent on canonical operands,
commutative and associative, and
`PCE([1]) & PCE([2]) & PCE([3]) = PCE([1,2,3])`. -/
theorem pce_bitand_laws (a b c : PartialComplexEntity) (ha : a.Canonical) :
    (∀ x, x ∈ (a.bitand b).indices ↔ x ∈ a.indices ∨ x ∈ b.indices) ∧
      (a.bitand b).Canonical ∧
      a.bitand a = a ∧
      a.bitand b = b.bitand a ∧
      (a.bitand b).bitand c = a.bitand (b.bitand c) ∧
      ((PartialComplexEntity.new [1]).bitand (PartialComplexEntity.new [2])).bitand
          (PartialComplexEntity.new [3]) = PartialComplexEntity.new [1, 2, 3] :=
  ⟨fun _ => PartialComplexEntity.mem_bitand_indices, PartialComplexEntity.bitand_canonical a b,
    PartialComplexEntity.bitand_self ha, PartialComplexEntity.bitand_comm a b,
    PartialComplexEntity.bitand_assoc a b c, by decide⟩

/-- Witness for C8 at `a = PCE([1])`, `b = PCE([2])`, `c = PCE([3])`:
idempotence holds there. -/
theorem pce_bitand_laws_witness :
    (PartialComplexEntity.new [1]).bitand (PartialComplexEntity.new [1]) =
      PartialComplexEntity.new [1] :=
  (pce_bitand_laws (PartialComplexEntity.new [1]) (PartialComplexEntity.new [2])
    (PartialComplexEntity.new [3]) (by decide)).2.2.1

/-- C9: Instantiables `+` is commutative, associative and idempotent, and
`&` is commutative and associative, on canonical operands. -/
theorem instantiables_add_bitand_laws (A B C : Instantiables)
    (hA : A.Canonical) (hB : B.Canonical) (hC : C.Canonical) :
    A.add B = B.add A ∧
      (A.add B).add C = A.add (B.add C) ∧
      A.add A = A ∧
      A.bitand B = B.bitand A ∧
      (A.bitand B).bitand C = A.bitand (B.bitand C) := by
  refine ⟨?_, ?_, ?_, ?_, ?_⟩
  · apply Instantiables.eq_of_sorted_of_mem_iff (Instantiables.add_sorted A B)
      (Instantiables.add_sorted B A)
    intro x
    rw [Instantiables.mem_add, Instantiables.mem_add, or_comm]
  · apply Instantiables.eq_of_sorted_of_mem_iff (Instantiables.add_sorted _ _)
      (Instantiables.add_sorted _ _)
    intro x
    rw [Instantiables.mem_add, Instantiables.mem_add, Instantiables.mem_add,
      Instantiables.mem_add, or_assoc]
  · apply Instantiables.eq_of_sorted_of_mem_iff (Instantiables.add_sorted A A) hA.1
    intro x
    rw [Instantiables.mem_add, or_self]
  · apply Instantiables.eq_of_sorted_of_mem_iff (Instantiables.bitand_sorted A B)
      (Instantiables.bitand_sorted B A)
    intro x
    rw [Instantiables.mem_bitand, Instantiables.mem_bitand]
    constructor
    · rintro ⟨p, hp, q, hq, rfl⟩
      exact ⟨q, hq, p, hp, PartialComplexEntity.bitand_comm p q⟩
    · rintro ⟨p, hp, q, hq, rfl⟩
      exact ⟨q, hq, p, hp, PartialComplexEntity.bitand_comm p q⟩
  · apply Instantiables.eq_of_sorted_of_mem_iff (Instantiables.bitand_sorted _ _)
      (Instantiables.bitand_sorted _ _)
    intro x
    constructor
    · intro hx
      rcases Instantiables.mem_bitand.1 hx with ⟨y, hy, r, hr, rfl⟩
      rcases Instantiables.mem_bitand.1 hy with ⟨p, hp, q, hq, rfl⟩
      exact Instantiables.mem_bitand.2 ⟨p, hp, q.bitand r,
        Instantiables.mem_bitand.2 ⟨q, hq, r, hr, rfl⟩,
        PartialComplexEntity.bitand_assoc p q r⟩
    · intro hx
      rcases Instantiables.mem_bitand.1 hx with ⟨p, hp, y, hy, rfl⟩
      rcases Instantiables.mem_bitand.1 hy with ⟨q, hq, r, hr, rfl⟩
      exact Instantiables.mem_bitand.2 ⟨p.bitand q,
        Instantiables.mem_bitand.2 ⟨p, hp, q, hq, rfl⟩, r, hr,
        (PartialComplexEntity.bitand_assoc p q r).symm⟩

/-- Witness for C9 at canonical values `A = [{1}]`, `B = [{2}]`,
`C = [{3}]`: idempotence of `+` holds there. -/
theorem instantiables_add_bitand_laws_witness :
    (Instantiables.mk [PartialComplexEntity.mk [1]]).add
        (Instantiables.mk [PartialComplexEntity.mk [1]]) =
      Instantiables.mk [PartialComplexEntity.mk [1]] :=
  (instantiables_add_bitand_laws (Instantiables.mk [PartialComplexEntity.mk [1]])
    (Instantiables.mk [PartialComplexEntity.mk [2]])
    (Instantiables.mk [PartialComplexEntity.mk [3]])
    (by decide) (by decide) (by decide)).2.2.1

/-- C5: on canonical operands, all four operations of the Instantiables
algebra return canonical results: parts strictly increasing in the PCE
order and each part itself sorted and duplicate-free. -/
theorem ops_preserve_canonical (A B : Instantiables)
    (hA : A.Canonical) (hB : B.Canonical) :
    (A.add B).Canonical ∧ (A.bitand B).Canonical ∧
      (A.sub B).Canonical ∧ (A.div B).Canonical := by
  refine ⟨⟨Instantiables.add_sorted A B, ?_⟩,
    ⟨Instantiables.bitand_sorted A B, ?_⟩, ⟨?_, ?_⟩, ⟨?_, ?_⟩⟩
  · intro p hp
    rcases Instantiables.mem_add.1 hp with h | h
    · exact hA.2 p h
    · exact hB.2 p h
  · intro p hp
    rcases Instantiables.mem_bitand.1 hp with ⟨q, _, r, _, rfl⟩
    exact PartialComplexEntity.bitand_canonical q r
  · exact List.Pairwise.filter _ hA.1
  · intro p hp
    exact hA.2 p (List.mem_filter.1 hp).1
  · exact List.Pairwise.filter _ hA.1
  · intro p hp
    exact hA.2 p (List.mem_filter.1 hp).1

/-- Witness for C5 at canonical values `A = [{1},{1,2}]`, `B = [{2}]`:
the `+` result is canonical there. -/
theorem ops_preserve_canonical_witness :
    ((Instantiables.mk [PartialComplexEntity.mk [1], PartialComplexEntity.mk [1, 2]]).add
        (Instantiables.mk [PartialComplexEntity.mk [2]])).Canonical :=
  (ops_preserve_canonical
    (Instantiables.mk [PartialComplexEntity.mk [1], PartialComplexEntity.mk [1, 2]])
    (Instantiables.mk [PartialComplexEntity.mk [2]])
    (by decide) (by decide)).1

/-- C6: `&` distributes over `+` on canonical operands:
`A & (B + C) = (A & B) + (A & C)`. -/
theorem bitand_distrib_add (A B C : Instantiables)
    (hA : A.Canonical) (hB : B.Canonical) (hC : C.Canonical) :
    A.bitand (B.add C) = (A.bitand B).add (A.bitand C) := by
  apply Instantiables.eq_of_sorted_of_mem_iff (Instantiables.bitand_sorted _ _)
    (Instantiables.add_sorted _ _)
  intro x
  rw [Instantiables.mem_bitand, Instantiables.mem_add, Instantiables.mem_bitand,
    Instantiables.mem_bitand]
  constructor
  · rintro ⟨p, hp, q, hq, rfl⟩
    rcases Instantiables.mem_add.1 hq with h | h
    · exact Or.inl ⟨p, hp, q, h, rfl⟩
    · exact Or.inr ⟨p, hp, q, h, rfl⟩
  · rintro (⟨p, hp, q, hq, rfl⟩ | ⟨p, hp, q, hq, rfl⟩)
    · exact ⟨p, hp, q, Instantiables.mem_add.2 (Or.inl hq), rfl⟩
    · exact ⟨p, hp, q, Instantiables.mem_add.2 (Or.inr hq), rfl⟩

/-- Witness for C6 at canonical values `A = [{1}]`, `B = [{2}]`,
`C = [{3}]`. -/
theorem bitand_distrib_add_witness :
    (Instantiables.mk [PartialComplexEntity.mk [1]]).bitand
        ((Instantiables.mk [PartialComplexEntity.mk [2]]).add
          (Instantiables.mk [PartialComplexEntity.mk [3]])) =
      ((Instantiables.mk [PartialComplexEntity.mk [1]]).bitand
          (Instantiables.mk [PartialComplexEntity.mk [2]])).add
        ((Instantiables.mk [PartialComplexEntity.mk [1]]).bitand
          (Instantiables.mk [PartialComplexEntity.mk [3]])) :=
  bitand_distrib_add (Instantiables.mk [PartialComplexEntity.mk [1]])
    (Instantiables.mk [PartialComplexEntity.mk [2]])
    (Instantiables.mk [PartialComplexEntity.mk [3]])
    (by decide) (by decide) (by decide)

/-- C7: for canonical `A`, `A / B` keeps exactly those parts `p` of `A`,
in their original order, for which some `q` in `B` has `q.indices` a
subset of `p.indices` (equality allowed). -/
theorem div_filters_covering (A B : Instantiables) (hA : A.Canonical) :
    A.div B = Instantiables.divSpec A B := by
  apply Instantiables.ext_parts
  apply List.filter_congr
  intro p hp
  have hps : p.indices.Sorted (· < ·) := hA.2 p hp
  apply bool_eq_of_iff
  simp only [List.any_eq_true, List.all_eq_true, decide_eq_true_eq]
  constructor
  · rintro ⟨q, hq, hall⟩
    exact ⟨q, hq, fun j hj => (binSearchFound_iff_mem hps).1 (hall j hj)⟩
  · rintro ⟨q, hq, hall⟩
    exact ⟨q, hq, fun j hj => (binSearchFound_iff_mem hps).2 (hall j hj)⟩

/-- Witness for C7 at the canonical value
`A = [{1},{4},{1,2},{2,3},{1,2,4}]` (the S6 part set in the PCE order)
and `B = [{2},{4}]`. -/
theorem div_filters_covering_witness :
    (Instantiables.mk [PartialComplexEntity.mk [1], PartialComplexEntity.mk [4],
        PartialComplexEntity.mk [1, 2], PartialComplexEntity.mk [2, 3],
        PartialComplexEntity.mk [1, 2, 4]]).div
        (Instantiables.mk [PartialComplexEntity.mk [2], PartialComplexEntity.mk [4]]) =
      (Instantiables.mk [PartialComplexEntity.mk [1], PartialComplexEntity.mk [4],
        PartialComplexEntity.mk [1, 2], PartialComplexEntity.mk [2, 3],
        PartialComplexEntity.mk [1, 2, 4]]).divSpec
        (Instantiables.mk [PartialComplexEntity.mk [2], PartialComplexEntity.mk [4]]) :=
  div_filters_covering _ _ (by decide)

theorem zipEqAll_iff :
    ∀ (l r : List (ScopeType × String)),
      zipEqAll l r = true ↔ (∃ t, l ++ t = r) ∨ (∃ t, r ++ t = l) := by
  intro l
  induction l with
  | nil =>
    intro r
    constructor
    · intro _
      exact Or.inl ⟨r, rfl⟩
    · intro _
      cases r with
      | nil => rfl
      | cons y ys => rfl
  | cons x xs ih =>
    intro r
    cases r with
    | nil =>
      constructor
      · intro _
        exact Or.inr ⟨x :: xs, rfl⟩
      · intro _
        rfl
    | cons y ys =>
      rw [zipEqAll, Bool.and_eq_true, decide_eq_true_eq, ih ys]
      constructor
      · rintro ⟨rfl, (⟨t, rfl⟩ | ⟨t, rfl⟩)⟩
        · exact Or.inl ⟨t, rfl⟩
        · exact Or.inr ⟨t, rfl⟩
      · rintro (⟨t, ht⟩ | ⟨t, ht⟩)
        · rw [List.cons_append] at ht
          injection ht with h1 h2
          exact ⟨h1, Or.inl ⟨t, h2⟩⟩
        · rw [List.cons_append] at ht
          injection ht with h1 h2
          exact ⟨h1.symm, Or.inr ⟨t, h2⟩⟩

/-- C3 (counterexample): the root scope's item sequence is a prefix of the
schema scope's, yet `root <= schema` is false while `schema <= root` is
true: the order runs opposite to the claimed direction. -/
theorem scope_le_counterexample :
    (∃ t, (Scope.mk []).items ++ t = (Scope.mk [(ScopeType.Schema, "s")]).items) ∧
      Scope.le (Scope.mk []) (Scope.mk [(ScopeType.Schema, "s")]) = false ∧
      Scope.le (Scope.mk [(ScopeType.Schema, "s")]) (Scope.mk []) = true :=
  ⟨⟨[(ScopeType.Schema, "s")], rfl⟩, by decide, by decide⟩

/-- C3 (amended): `a <= b` holds exactly when `b`'s item sequence is a
prefix of `a`'s — the nested scope compares less-or-equal to the scope
enclosing it — and two scopes, neither of whose item sequences is a
prefix of the other's, are incomparable (`partial_cmp` returns `None`). -/
theorem scope_le_iff_enclosing (a b : Scope) :
    (Scope.le a b = true ↔ ∃ t, b.items ++ t = a.items) ∧
      (Scope.cmpOpt a b = none ↔
        ¬ (∃ t, a.items ++ t = b.items) ∧ ¬ (∃ t, b.items ++ t = a.items)) := by
  constructor
  · by_cases hz : zipEqAll a.items b.items = true
    · rw [Scope.le, Scope.cmpOpt, if_pos hz]
      cases hc : compare b.items.length a.items.length with
      | lt =>
        have hlen : b.items.length < a.items.length := Nat.compare_eq_lt.1 hc
        constructor
        · intro _
          rcases (zipEqAll_iff a.items b.items).1 hz with ⟨t, ht⟩ | h
          · exfalso
            have := congrArg List.length ht
            rw [List.length_append] at this
            omega
          · exact h
        · intro _
          rfl
      | eq =>
        have hlen : b.items.length = a.items.length := Nat.compare_eq_eq.1 hc
        constructor
        · intro _
          rcases (zipEqAll_iff a.items b.items).1 hz with ⟨t, ht⟩ | h
          · have hlt := congrArg List.length ht
            rw [List.length_append] at hlt
            have htnil : t = [] := List.eq_nil_of_length_eq_zero (by omega)
            subst htnil
            refine ⟨[], ?_⟩
            rw [List.append_nil] at ht ⊢
            exact ht.symm
          · exact h
        · intro _
          rfl
      | gt =>
        have hlen : a.items.length < b.items.length := Nat.compare_eq_gt.1 hc
        constructor
        · intro hfalse
          exact absurd hfalse (by simp)
        · rintro ⟨t, ht⟩
          exfalso
          have := congrArg List.length ht
          rw [List.length_append] at this
          omega
    · rw [Scope.le, Scope.cmpOpt, if_neg hz]
      constructor
      · intro hfalse
        exact absurd hfalse (by simp)
      · rintro ⟨t, ht⟩
        exact absurd ((zipEqAll_iff a.items b.items).2 (Or.inr ⟨t, ht⟩)) hz
  · rw [Scope.cmpOpt]
    by_cases hz : zipEqAll a.items b.items = true
    · rw [if_pos hz]
      constructor
      · intro h
        exact absurd h (by simp)
      · rintro ⟨h1, h2⟩
        rcases (zipEqAll_iff a.items b.items).1 hz with h | h
        · exact absurd h h1
        · exact absurd h h2
    · rw [if_neg hz]
      constructor
      · intro _
        constructor
        · rintro ⟨t, ht⟩
          exact hz ((zipEqAll_iff a.items b.items).2 (Or.inl ⟨t, ht⟩))
        · rintro ⟨t, ht⟩
          exact hz ((zipEqAll_iff a.items b.items).2 (Or.inr ⟨t, ht⟩))
      · intro _
        rfl

/-- C2 (counterexample): lowering an empty `OneOf` succeeds with the empty
`Instantiables` — it is not the `EmptyConstraint` diagnostic — while empty
`And` / `AndOr` lists fail an assertion (panic) rather than producing a
diagnostic. -/
theorem empty_constraint_counterexample :
    Instantiables.from_constraint_expr (fun _ => Except.error SemanticError.Internal)
        (ConstraintExpr.OneOf []) = LowerResult.ok ⟨[]⟩ ∧
      Instantiables.from_constraint_expr (fun _ => Except.error SemanticError.Internal)
        (ConstraintExpr.OneOf []) ≠ LowerResult.err SemanticError.EmptyConstraint ∧
      Instantiables.from_constraint_expr (fun _ => Except.error SemanticError.Internal)
        (ConstraintExpr.And []) = LowerResult.panic ∧
      Instantiables.from_constraint_expr (fun _ => Except.error SemanticError.Internal)
        (ConstraintExpr.AndOr []) = LowerResult.panic :=
  ⟨rfl, by decide, rfl, rfl⟩

/-- C2 (amended): for every namespace, an empty `OneOf` operand list lowers
without any diagnostic to the empty `Instantiables`, and empty `And` /
`AndOr` operand lists violate an `assert!` (panic); no `EmptyConstraint`
error is produced anywhere in the lowering. -/
theorem empty_constraint_behavior (ns : Espr.Path → Except SemanticError Nat) :
    Instantiables.from_constraint_expr ns (ConstraintExpr.OneOf []) =
        LowerResult.ok ⟨[]⟩ ∧
      Instantiables.from_constraint_expr ns (ConstraintExpr.And []) =
        LowerResult.panic ∧
      Instantiables.from_constraint_expr ns (ConstraintExpr.AndOr []) =
        LowerResult.panic :=
  ⟨rfl, rfl, rfl⟩

theorem andorTerm_getD {factors : List Instantiables} {i : Nat}
    {x : Instantiables} {xs : List Instantiables}
    (hsel : maskSelect i factors = x :: xs) :
    (andorTerm factors i none).getD ⟨[]⟩ = andProd x xs := by
  rw [andorTerm_none factors i, hsel]
  rfl

theorem andor_eq_andorSpec {factors : List Instantiables} (h : factors ≠ []) :
    Instantiables.andor factors = some (andorSpec factors) := by
  have hie : factors.isEmpty = false := by
    cases factors with
    | nil => exact absurd rfl h
    | cons f fs => rfl
  rw [Instantiables.andor, hie, if_neg Bool.false_ne_true]
  congr 1
  rw [andorSpec]
  have hmap :
      (List.range' 1 (2 ^ factors.length - 1)).foldl
          (fun acc i => acc.add ((andorTerm factors i none).getD ⟨[]⟩)) ⟨[]⟩ =
        ((List.range' 1 (2 ^ factors.length - 1)).map
            (fun i => (andorTerm factors i none).getD ⟨[]⟩)).foldl
          Instantiables.add ⟨[]⟩ := by
    rw [List.foldl_map]
  rw [hmap]
  apply Instantiables.eq_of_sorted_of_mem_iff
    (foldl_add_sorted _ _ List.sorted_nil) (foldl_add_sorted _ _ List.sorted_nil)
  intro x
  rw [mem_foldl_add, mem_foldl_add]
  constructor
  · rintro (hx | ⟨y, hy, hxy⟩)
    · exact absurd hx (List.not_mem_nil x)
    · rcases List.mem_map.1 hy with ⟨i, hi, rfl⟩
      obtain ⟨k, hk, hik⟩ := List.mem_range'.1 hi
      have h1 : 1 ≤ i := by omega
      have h2 : i < 2 ^ factors.length := by
        have hone : (1 : Nat) ≤ 2 ^ factors.length := Nat.one_le_two_pow
        omega
      rcases hsel : maskSelect i factors with _ | ⟨x₀, xs⟩
      · exact absurd hsel (maskSelect_ne_nil factors i h1 h2)
      · refine Or.inr ⟨andProd x₀ xs, List.mem_map.2 ⟨x₀ :: xs, ?_, rfl⟩, ?_⟩
        · apply List.mem_filter.2
          refine ⟨?_, by simp⟩
          rw [← hsel]
          exact List.mem_sublists.2 (maskSelect_sublist factors i)
        · rw [← andorTerm_getD hsel]
          exact hxy
  · rintro (hx | ⟨y, hy, hxy⟩)
    · exact absurd hx (List.not_mem_nil x)
    · rcases List.mem_map.1 hy with ⟨s, hs, rfl⟩
      have hsf := List.mem_filter.1 hs
      have hsub : s.Sublist factors := List.mem_sublists.1 hsf.1
      have hsne : s ≠ [] := by simpa using hsf.2
      obtain ⟨i, hilt, hisel, hipos⟩ := exists_mask_of_sublist hsub
      have h1 : 1 ≤ i := hipos hsne
      refine Or.inr ⟨(andorTerm factors i none).getD ⟨[]⟩,
        List.mem_map.2 ⟨i, List.mem_range'.2 ⟨i - 1, by omega, by omega⟩, rfl⟩, ?_⟩
      cases s with
      | nil => exact absurd rfl hsne
      | cons x₀ xs =>
        rw [andorTerm_getD hisel]
        exact hxy

theorem andor_pair (A B : Instantiables) :
    Instantiables.andor [A, B] = some ((A.add B).add (A.bitand B)) := by
  have hcomp : Instantiables.andor [A, B] =
      some ((((⟨[]⟩ : Instantiables).add A).add B).add (A.bitand B)) := rfl
  rw [hcomp]
  congr 1
  apply Instantiables.eq_of_sorted_of_mem_iff (Instantiables.add_sorted _ _)
    (Instantiables.add_sorted _ _)
  intro x
  simp only [Instantiables.mem_add]
  constructor
  · rintro (((hx | hx) | hx) | hx)
    · exact absurd hx (List.not_mem_nil x)
    · exact Or.inl (Or.inl hx)
    · exact Or.inl (Or.inr hx)
    · exact Or.inr hx
  · rintro ((hx | hx) | hx)
    · exact Or.inl (Or.inl (Or.inr hx))
    · exact Or.inl (Or.inr hx)
    · exact Or.inr hx

theorem bitand_single_single (p q : PartialComplexEntity) :
    (Instantiables.mk [p]).bitand (Instantiables.mk [q]) =
      Instantiables.mk [p.bitand q] := rfl

theorem andProd_singles :
    ∀ (bs : List Nat) (p : PartialComplexEntity), p.Canonical →
      andProd (Instantiables.mk [p]) (bs.map Instantiables.single) =
        Instantiables.mk [PartialComplexEntity.mk (canonList (p.indices ++ bs))] := by
  intro bs
  induction bs with
  | nil =>
    intro p hp
    have hcp : canonList (p.indices ++ []) = p.indices := by
      rw [List.append_nil]
      exact canonList_eq_self hp
    show Instantiables.mk [p] = _
    rw [hcp]
  | cons b bs ih =>
    intro p hp
    show andProd ((Instantiables.mk [p]).bitand (Instantiables.single b))
        (bs.map Instantiables.single) = _
    rw [show Instantiables.single b = Instantiables.mk [PartialComplexEntity.mk [b]] from rfl,
      bitand_single_single,
      ih (p.bitand (PartialComplexEntity.mk [b]))
        (PartialComplexEntity.bitand_canonical p (PartialComplexEntity.mk [b]))]
    have hc : canonList ((p.bitand (PartialComplexEntity.mk [b])).indices ++ bs) =
        canonList (p.indices ++ b :: bs) := by
      apply canonList_congr
      intro x
      simp [PartialComplexEntity.mem_bitand_indices, or_assoc]
    rw [hc]

theorem sublist_eq_filter :
    ∀ {s l : List Nat}, s.Sublist l → l.Nodup →
      s = l.filter fun a => decide (a ∈ s) := by
  intro s l hs
  induction hs with
  | slnil =>
    intro _
    rfl
  | @cons l₁ l₂ a h ih =>
    intro hn
    rw [List.nodup_cons] at hn
    have ha : a ∉ l₁ := fun hmem => hn.1 (h.subset hmem)
    rw [List.filter_cons, if_neg (by simpa using ha)]
    exact ih hn.2
  | @cons₂ l₁ l₂ a h ih =>
    intro hn
    rw [List.nodup_cons] at hn
    rw [List.filter_cons, if_pos (by simp)]
    have hcong : List.filter (fun y => decide (y ∈ a :: l₁)) l₂ =
        List.filter (fun y => decide (y ∈ l₁)) l₂ := by
      apply List.filter_congr
      intro y hy
      have hya : y ≠ a := fun he => hn.1 (he ▸ hy)
      simp [List.mem_cons, hya]
    rw [hcong, ← ih hn.2]

theorem canonList_inj_on_sublists {idx s t : List Nat} (hidx : idx.Nodup)
    (hs : s.Sublist idx) (ht : t.Sublist idx)
    (h : canonList s = canonList t) : s = t := by
  have hmem : ∀ x : Nat, x ∈ s ↔ x ∈ t := by
    intro x
    rw [← mem_canonList (l := s) (x := x), h, mem_canonList]
  rw [sublist_eq_filter hs hidx, sublist_eq_filter ht hidx]
  apply List.filter_congr
  intro x _
  exact decide_eq_decide.2 (hmem x)

theorem length_filter_sublists_ne_nil {idx : List Nat} (hidx : idx.Nodup) :
    (idx.sublists.filter fun s => decide (s ≠ [])).length = 2 ^ idx.length - 1 := by
  have hnd : idx.sublists.Nodup := List.nodup_sublists.2 hidx
  have hmem : ([] : List Nat) ∈ idx.sublists :=
    List.mem_sublists.2 (List.nil_sublist idx)
  have hfeq : idx.sublists.filter (fun s => decide (s ≠ [])) =
      idx.sublists.filter (fun s => s != []) := by
    apply List.filter_congr
    intro s _
    apply bool_eq_of_iff
    simp
  rw [hfeq, ← List.Nodup.erase_eq_filter hnd, List.length_erase_of_mem hmem,
    List.length_sublists]

theorem andor_singles_length {idx : List Nat} (hidx : idx.Nodup) (hne : idx ≠ []) :
    ((Instantiables.andor (idx.map Instantiables.single)).getD ⟨[]⟩).parts.length =
      2 ^ idx.length - 1 := by
  have hfne : idx.map Instantiables.single ≠ [] := by
    cases idx with
    | nil => exact absurd rfl hne
    | cons a l => exact List.cons_ne_nil _ _
  rw [andor_eq_andorSpec hfne]
  show (andorSpec (idx.map Instantiables.single)).parts.length = _
  have hRs : (andorSpec (idx.map Instantiables.single)).parts.Sorted (· < ·) := by
    rw [andorSpec]
    exact foldl_add_sorted _ _ List.sorted_nil
  have hRmem : ∀ x, x ∈ (andorSpec (idx.map Instantiables.single)).parts ↔
      ∃ s, s.Sublist idx ∧ s ≠ [] ∧ x = PartialComplexEntity.mk (canonList s) := by
    intro x
    rw [andorSpec, mem_foldl_add]
    constructor
    · rintro (hx | ⟨y, hy, hxy⟩)
      · exact absurd hx (List.not_mem_nil x)
      · rcases List.mem_map.1 hy with ⟨s', hs', rfl⟩
        have hsf := List.mem_filter.1 hs'
        have hs'mem : s' ∈ (idx.map Instantiables.single).sublists := hsf.1
        rw [List.sublists_map] at hs'mem
        rcases List.mem_map.1 hs'mem with ⟨s, hsm, rfl⟩
        have hsne : s ≠ [] := by
          intro hnil
          subst hnil
          simp at hsf
        cases s with
        | nil => exact absurd rfl hsne
        | cons a s₂ =>
          have hxy' : x ∈ (andProd (Instantiables.single a)
              (s₂.map Instantiables.single)).parts := hxy
          rw [show Instantiables.single a =
                Instantiables.mk [PartialComplexEntity.mk [a]] from rfl,
            andProd_singles s₂ (PartialComplexEntity.mk [a])
              (List.sorted_singleton a)] at hxy'
          have hx : x = PartialComplexEntity.mk (canonList (a :: s₂)) := by
            simpa using hxy'
          exact ⟨a :: s₂, List.mem_sublists.1 hsm, List.cons_ne_nil a s₂, hx⟩
    · rintro ⟨s, hsub, hsne, rfl⟩
      cases s with
      | nil => exact absurd rfl hsne
      | cons a s₂ =>
        refine Or.inr ⟨andProd (Instantiables.single a) (s₂.map Instantiables.single),
          List.mem_map.2 ⟨(a :: s₂).map Instantiables.single, ?_, rfl⟩, ?_⟩
        · apply List.mem_filter.2
          constructor
          · rw [List.sublists_map]
            exact List.mem_map.2 ⟨a :: s₂, List.mem_sublists.2 hsub, rfl⟩
          · simp
        · rw [show Instantiables.single a =
              Instantiables.mk [PartialComplexEntity.mk [a]] from rfl,
            andProd_singles s₂ (PartialComplexEntity.mk [a]) (List.sorted_singleton a)]
          exact List.mem_singleton.2 rfl
  have hLmem : ∀ x, x ∈ ((idx.sublists.filter fun s => decide (s ≠ [])).map
      fun s => PartialComplexEntity.mk (canonList s)) ↔
      ∃ s, s.Sublist idx ∧ s ≠ [] ∧ x = PartialComplexEntity.mk (canonList s) := by
    intro x
    constructor
    · intro hx
      rcases List.mem_map.1 hx with ⟨s, hs, rfl⟩
      have hsf := List.mem_filter.1 hs
      exact ⟨s, List.mem_sublists.1 hsf.1, by simpa using hsf.2, rfl⟩
    · rintro ⟨s, hsub, hsne, rfl⟩
      exact List.mem_map.2 ⟨s,
        List.mem_filter.2 ⟨List.mem_sublists.2 hsub, by simpa⟩, rfl⟩
  have hLnd : ((idx.sublists.filter fun s => decide (s ≠ [])).map
      fun s => PartialComplexEntity.mk (canonList s)).Nodup := by
    apply List.Nodup.map_on
    · intro s hs' t ht' he
      have hssub := List.mem_sublists.1 (List.mem_filter.1 hs').1
      have htsub := List.mem_sublists.1 (List.mem_filter.1 ht').1
      have hcc : canonList s = canonList t := by
        injection he
      exact canonList_inj_on_sublists hidx hssub htsub hcc
    · exact (List.nodup_sublists.2 hidx).filter _
  have hperm : (andorSpec (idx.map Instantiables.single)).parts.Perm
      ((idx.sublists.filter fun s => decide (s ≠ [])).map
        fun s => PartialComplexEntity.mk (canonList s)) :=
    (List.perm_ext_iff_of_nodup (sorted_lt_nodup hRs) hLnd).2
      (fun x => (hRmem x).trans (hLmem x).symm)
  rw [hperm.length_eq, List.length_map, length_filter_sublists_ne_nil hidx]

/-- C4: `Instantiables::andor` of a non-empty operand list equals the sum
over every non-empty subset `S` of the operands of the `&`-product of the
members of `S` (subsets enumerated as sublists); in particular
`andor([A, B]) = A + B + (A & B)`, and for pairwise-distinct singleton
operands the result has exactly `2^n - 1` canonical terms. -/
theorem andor_subset_expansion (factors : List Instantiables)
    (hfac : factors ≠ []) (A B : Instantiables) (idx : List Nat)
    (hidx : idx.Nodup) (hne : idx ≠ []) :
    Instantiables.andor factors = some (andorSpec factors) ∧
      Instantiables.andor [A, B] = some ((A.add B).add (A.bitand B)) ∧
      ((Instantiables.andor (idx.map Instantiables.single)).getD ⟨[]⟩).parts.length =
        2 ^ idx.length - 1 :=
  ⟨andor_eq_andorSpec hfac, andor_pair A B, andor_singles_length hidx hne⟩

/-- Witness for C4 at `factors = [single 1, single 2]`, `A = single 1`,
`B = single 2`, `idx = [1, 2]` (the spec's S4 instance). -/
theorem andor_subset_expansion_witness :
    Instantiables.andor [Instantiables.single 1, Instantiables.single 2] =
        some (andorSpec [Instantiables.single 1, Instantiables.single 2]) ∧
      Instantiables.andor [Instantiables.single 1, Instantiables.single 2] =
        some (((Instantiables.single 1).add (Instantiables.single 2)).add
          ((Instantiables.single 1).bitand (Instantiables.single 2))) ∧
      ((Instantiables.andor (([1, 2] : List Nat).map Instantiables.single)).getD
          ⟨[]⟩).parts.length = 2 ^ ([1, 2] : List Nat).length - 1 :=
  andor_subset_expansion [Instantiables.single 1, Instantiables.single 2]
    (by decide) (Instantiables.single 1) (Instantiables.single 2) [1, 2]
    (by decide) (by decide)
